import Mathlib

/-!
Verification development for the SOL application composer
(`src/sol/opt/composer.pyx`, function `compose_apps`).

The composer is modelled as a pure function that, given the inputs of
`compose_apps`, produces the sequence of calls submitted to the external
model builder (`OptimizationGurobi`), together with an optional error.
Python exceptions abort the composition; the calls submitted before the
exception are kept in the trace, mirroring the fact that the builder
object receives them before the exception propagates.

External collaborators (topology, applications, network configuration,
the model builder) are modelled by the interface `compose_apps` actually
uses, per the specification's external-interface section.  Capacities,
volumes and weights are rationals (the Python code uses floats; every
concrete value used in the claims is exactly representable).
-/

set_option autoImplicit false

namespace SOL

/-- Traffic classes are opaque identifiers. -/
abbrev TrafficClass := Nat

/-- Paths are opaque identifiers. -/
abbrev Path := Nat

/-- `PPTC` (paths per traffic class): mapping from traffic class to the set of
candidate paths.  Modelled as a total function with empty default. -/
abbrev PPTC := TrafficClass → Finset Path

/-- Modelled from the spec: `PPTC.update` (the class `PPTC` lives in
`sol/path/paths.pyx`, which is not part of the source under scrutiny).
The spec: "merging two applications' sets for the same traffic class is a
set union, not a replacement". -/
def PPTC.update (self other : PPTC) : PPTC := fun tc => self tc ∪ other tc

/-- Values appearing in an objective keyword-option dictionary.  The composer
itself inserts a string (the variable name) and a traffic-class list. -/
inductive KwVal where
  | s (v : String)
  | tcl (v : List TrafficClass)
  | n (v : Nat)
deriving DecidableEq

/-- Python dictionary lookup on a (string-keyed) association list:
first binding wins. -/
def dlookup {α : Type} (k : String) : List (String × α) → Option α
  | [] => none
  | (k2, v) :: rest => if k2 = k then some v else dlookup k rest

/-- Python `dict` assignment `d[k] = v` (also the effect of `d.update` for a
single key): replace the value in place if the key is present, otherwise
append a new binding at the end (insertion order preserved). -/
def dictSet {α : Type} (d : List (String × α)) (k : String) (v : α) :
    List (String × α) :=
  match d with
  | [] => [(k, v)]
  | (k2, v2) :: rest =>
    if k2 = k then (k, v) :: rest else (k2, v2) :: dictSet rest k v

/-- An application, with exactly the attributes `compose_apps` reads.
`obj_fn`, `obj_args`, `obj_kwargs` are the three components of the tuple
`app.obj`; `volume` is the value of `app.volume()`; cost functions are
opaque identifiers. -/
structure App where
  name : String
  pptc : PPTC
  resource_cost : List (String × (Nat × String))
  obj_fn : String
  obj_args : List Nat
  obj_kwargs : List (String × KwVal)
  obj_tc : List TrafficClass
  volume : Rat

/-- A topology: enumerable nodes and links (opaque element identifiers) and a
per-element table of advertised resources (`topo.get_resources`). -/
structure Topology where
  nodes : List Nat
  links : List Nat
  get_resources : Nat → List (String × Rat)

/-- The caps table of a network configuration: `caps.resources()` and
`caps.caps(r)`. -/
structure Caps where
  resources : List String
  capsOf : String → Rat

/-- A network configuration: `network_config.get_caps()`. -/
structure NetworkConfig where
  get_caps : Option Caps

/-- Errors raised by `compose_apps`:
`assertFail` is a bare `AssertionError` (it carries no message);
`invalidConfig what value` is `InvalidConfigException(ERR_UNKNOWN_MODE %
(what, value))` — the payload is exactly the two format arguments, the
format string itself (in `sol/utils/const.py`, outside the analysed
source) carries no further information;
`valueError` is a `ValueError` (in particular numpy's "truth value of an
array with more than one element is ambiguous"). -/
inductive Err where
  | assertFail
  | invalidConfig (what : String) (value : String)
  | valueError
deriving DecidableEq

/-- One call submitted to the model builder `opt`. -/
inductive Event where
  | consume (pptc : PPTC) (r : String) (cost_funcs : List Nat)
      (capacities : List (Nat × Rat)) (mode : String)
  | cap (r : String) (capval : Rat) (tcs : Option (List TrafficClass))
  | add_named_constraints (app : App)
  | add_single_objective (fn : String) (args : List Nat)
      (kwargs : List (String × KwVal))
  | compose_objectives (objs : List (List Rat)) (epoch_mode : String)
      (fairness : String) (weights : List Rat)

/-- Modelled from the spec: the `NODES` ownership-domain constant from
`sol/utils/const.py` (not in the analysed source).  Only its distinctness
from `LINKS` matters. -/
def NODES : String := "nodes"

/-- Modelled from the spec: the `LINKS` ownership-domain constant from
`sol/utils/const.py` (not in the analysed source). -/
def LINKS : String := "links"

/-- `all_pptc = PPTC(); for app in apps: all_pptc.update(app.pptc)`. -/
def all_pptc (apps : List App) : PPTC :=
  apps.foldl (fun acc a => acc.update a.pptc) (fun _ => ∅)

/-- `node_caps = {node: topo.get_resources(node) for node in topo.nodes()}`. -/
def node_caps (topo : Topology) : List (Nat × List (String × Rat)) :=
  topo.nodes.map fun n => (n, topo.get_resources n)

/-- `link_caps = {link: topo.get_resources(link) for link in topo.links()}`. -/
def link_caps (topo : Topology) : List (Nat × List (String × Rat)) :=
  topo.links.map fun l => (l, topo.get_resources l)

/-- `{n: node_caps[n][r] for n in node_caps if r in node_caps[n]}`. -/
def node_capacities (topo : Topology) (r : String) : List (Nat × Rat) :=
  (node_caps topo).filterMap fun p => (dlookup r p.2).map fun c => (p.1, c)

/-- `{l: link_caps[l][r] for l in link_caps if r in link_caps[l]}`. -/
def link_capacities (topo : Topology) (r : String) : List (Nat × Rat) :=
  (link_caps topo).filterMap fun p => (dlookup r p.2).map fun c => (p.1, c)

/-- `[app.resource_cost[r] for app in apps if r in app.resource_cost]`:
the (cost function, mode) pairs contributed for resource `r`, in
application input order. -/
def contribs (apps : List App) (r : String) : List (Nat × String) :=
  apps.filterMap fun a => dlookup r a.resource_cost

/-- `rset = set(); for app in apps: rset.update(app.resource_cost.keys())`.
A Python set iterates in an unspecified order; we fix first-insertion
order, which the claims (none of which depend on resource order) allow. -/
def insertUniq (acc : List String) (r : String) : List String :=
  if r ∈ acc then acc else acc ++ [r]

/-- The distinct resource names referenced by the applications. -/
def rset (apps : List App) : List String :=
  apps.foldl (fun acc a => (a.resource_cost.map Prod.fst).foldl insertUniq acc) []

/-- `assert len(set(modes)) == 1` succeeds iff the modes collected for the
resource are nonempty and all equal. -/
def modesConsistent (apps : List App) (r : String) : Bool :=
  match (contribs apps r).map Prod.snd with
  | [] => false
  | m :: ms => ms.all (· == m)

/-- `mode = modes[0]`. -/
def modeOf (apps : List App) (r : String) : String :=
  ((contribs apps r).map Prod.snd).headD ""

/-- A resource passes both checks of the consume loop: consistent modes and a
recognized ownership domain. -/
def goodResource (apps : List App) (r : String) : Bool :=
  modesConsistent apps r
    && (modeOf apps r == NODES || modeOf apps r == LINKS)

/-- The body of one iteration of the consume loop for resource `r`, up to and
including the `opt.consume` call, as data: either the consume event, or the
exception raised.  `zip(*[])` on an empty contribution list raises a
`ValueError` (unreachable for `r ∈ rset`). -/
def processResource (apps : List App) (topo : Topology) (p : PPTC)
    (r : String) : Except Err Event :=
  match (contribs apps r).map Prod.snd with
  | [] => .error .valueError
  | m :: ms =>
    if ms.all (· == m) then
      if m = NODES then
        .ok (.consume p r ((contribs apps r).map Prod.fst)
          (node_capacities topo r) m)
      else if m = LINKS then
        .ok (.consume p r ((contribs apps r).map Prod.fst)
          (link_capacities topo r) m)
      else
        .error (.invalidConfig "resource owner" m)
    else
      .error .assertFail

/-- The consume event a good resource produces (the value of
`processResource` on its success path). -/
def consumeEvOf (apps : List App) (topo : Topology) (p : PPTC) (r : String) :
    Event :=
  .consume p r ((contribs apps r).map Prod.fst)
    (if modeOf apps r = NODES then node_capacities topo r
     else link_capacities topo r)
    (modeOf apps r)

/-- `for r in rset: ... opt.consume(...)` — a raised exception aborts the
loop; the consume calls made before it stand. -/
def consumeList (apps : List App) (topo : Topology) (p : PPTC) :
    List String → List Event × Option Err
  | [] => ([], none)
  | r :: rs =>
    match processResource apps topo p r with
    | .error e => ([], some e)
    | .ok ev =>
      let rest := consumeList apps topo p rs
      (ev :: rest.1, rest.2)

/-- The capping loop: `if network_config is not None: caps =
network_config.get_caps(); if caps is not None: for r in caps.resources():
opt.cap(r, caps.caps(r), tcs=None)`. -/
def capEventsOf (network_config : Option NetworkConfig) : List Event :=
  match network_config with
  | none => []
  | some nc =>
    match nc.get_caps with
    | none => []
    | some caps => caps.resources.map fun r => Event.cap r (caps.capsOf r) none

/-- `kwargs = app.obj[2].copy(); kwargs.update(dict(varname=app.name,
tcs=app.obj_tc))`. -/
def augKwargs (a : App) : List (String × KwVal) :=
  dictSet (dictSet a.obj_kwargs "varname" (KwVal.s a.name)) "tcs"
    (KwVal.tcl a.obj_tc)

/-- `volumes.sum()` for `volumes = array([app.volume() for app in apps])`. -/
def totalVolume (apps : List App) : Rat :=
  (apps.map App.volume).sum

/-- `weights = 1 - volumes/volumes.sum()` (element-wise).  In Lean `v / 0 = 0`;
the claims about derived weights carry a nonzero-total-volume hypothesis, so
the zero-total case (`nan`/`inf` in numpy, flagged as ambiguous by the spec)
is never relied upon. -/
def derivedWeights (apps : List App) : List Rat :=
  (apps.map App.volume).map fun v => 1 - v / totalVolume apps

/-- The weight computation (lines 75-79).  With explicit weights the source
runs `assert 0 <= weights <= 1`, a chained comparison.  On a numpy vector of
length ≥ 2 this raises `ValueError` ("truth value of an array with more than
one element is ambiguous") whatever the values are; on a length-1 vector it
is the scalar range check; `bool` of an empty array is `False`
(`AssertionError`).  (A plain Python list would raise `TypeError`; either
way every genuine vector is rejected.) -/
def weightsOf (apps : List App) (weights : Option (List Rat)) :
    Except Err (List Rat) :=
  match weights with
  | none => .ok (derivedWeights apps)
  | some [] => .error .assertFail
  | some [x] => if 0 ≤ x ∧ x ≤ 1 then .ok [x] else .error .assertFail
  | some (_ :: _ :: _) => .error .valueError

/-- The full `compose_apps`, as the sequence of model-builder calls plus an
optional error.  The oracle maps each `add_single_objective` call to the
epoch-objective vector the external builder returns for it. -/
def compose_apps (oracle : String → List Nat → List (String × KwVal) → List Rat)
    (apps : List App) (topo : Topology) (network_config : Option NetworkConfig)
    (epoch_mode : String) (fairness : String) (weights : Option (List Rat)) :
    List Event × Option Err :=
  let p := all_pptc apps
  let loop := consumeList apps topo p (rset apps)
  match loop.2 with
  | some e => (loop.1, some e)
  | none =>
    let evs1 := loop.1 ++ capEventsOf network_config
      ++ apps.map Event.add_named_constraints
    match weightsOf apps weights with
    | .error e => (evs1, some e)
    | .ok ws =>
      (evs1
        ++ (apps.map fun a =>
              Event.add_single_objective a.obj_fn a.obj_args (augKwargs a))
        ++ [Event.compose_objectives
              (apps.map fun a => oracle a.obj_fn a.obj_args (augKwargs a))
              epoch_mode fairness ws],
       none)

/-- Resource names of the `consume` calls in a trace, in order. -/
def consumedRes (tr : List Event) : List String :=
  tr.filterMap fun e =>
    match e with
    | .consume _ r _ _ _ => some r
    | _ => none

/-- The `cap` calls in a trace, as (resource, cap value, target classes). -/
def capCallsIn (tr : List Event) :
    List (String × Rat × Option (List TrafficClass)) :=
  tr.filterMap fun e =>
    match e with
    | .cap r v tcs => some (r, v, tcs)
    | _ => none

/-- The `add_single_objective` calls in a trace. -/
def objCallsIn (tr : List Event) :
    List (String × List Nat × List (String × KwVal)) :=
  tr.filterMap fun e =>
    match e with
    | .add_single_objective fn args kwargs => some (fn, args, kwargs)
    | _ => none

/-- The `compose_objectives` calls in a trace. -/
def composeCallsIn (tr : List Event) :
    List (List (List Rat) × String × String × List Rat) :=
  tr.filterMap fun e =>
    match e with
    | .compose_objectives objs em fm ws => some (objs, em, fm, ws)
    | _ => none

/-! ### Mutable-state model of the objective loop (lines 83-88)

The only statement in `compose_apps` that writes into a Python object is
`kwargs.update(...)`, and it targets `app.obj[2].copy()`, not the
application's own dictionary.  To verify this frame property we model the
heap of keyword-option dictionaries explicitly: a store of dictionaries,
each application holding a reference (index) to its own `obj[2]`.  The
loop allocates the copy as a fresh store cell and updates that cell. -/

/-- A keyword-option dictionary object. -/
abbrev Dict := List (String × KwVal)

/-- The heap of dictionary objects; an application's `obj[2]` is a
reference (index) into it. -/
abbrev Store := List Dict

/-- Dereference a dictionary. -/
def storeGet (st : Store) (i : Nat) : Dict := (st[i]?).getD []

/-- An application as seen by the objective loop, its keyword options held
by reference. -/
structure ObjApp where
  name : String
  obj_fn : String
  obj_args : List Nat
  kwargsRef : Nat
  obj_tc : List TrafficClass

/-- The objective loop with the dictionary heap explicit:
`kwargs = app.obj[2].copy()` allocates a fresh cell holding a copy of the
referenced dictionary, `kwargs.update(dict(varname=app.name, tcs=app.obj_tc))`
mutates that fresh cell, and `opt.add_single_objective` receives the mutated
copy.  Returns the final store and the calls made, in application order. -/
def objLoopStore : List ObjApp → Store → Store × List (String × List Nat × Dict)
  | [], st => (st, [])
  | a :: rest, st =>
    let copied := storeGet st a.kwargsRef
    let updated := dictSet (dictSet copied "varname" (KwVal.s a.name)) "tcs"
      (KwVal.tcl a.obj_tc)
    let res := objLoopStore rest (st ++ [updated])
    (res.1, (a.obj_fn, a.obj_args, updated) :: res.2)

/-! ### Concrete fixtures for witnesses and counterexamples -/

/-- Application A of the spec's end-to-end scenario: volume 10, resource
"bw" NODE-scoped, one traffic class with two candidate paths. -/
def appA : App where
  name := "A"
  pptc := fun tc => if tc = 0 then {0, 1} else ∅
  resource_cost := [("bw", (0, NODES))]
  obj_fn := "minlinkload"
  obj_args := []
  obj_kwargs := [("resource", KwVal.s "bw")]
  obj_tc := [0]
  volume := 10

/-- Application B of the spec's end-to-end scenario: volume 30, "bw"
NODE-scoped, the shared traffic class with one differing path. -/
def appB : App where
  name := "B"
  pptc := fun tc => if tc = 0 then {1, 2} else ∅
  resource_cost := [("bw", (1, NODES))]
  obj_fn := "minnodeload"
  obj_args := [7]
  obj_kwargs := []
  obj_tc := [0]
  volume := 30

/-- Like `appB` but declaring "bw" LINK-scoped (domain-mismatch scenario). -/
def appBlink : App :=
  { appB with resource_cost := [("bw", (1, LINKS))] }

/-- An application declaring "bw" with the unrecognized domain "weird". -/
def appC : App :=
  { appA with name := "C", resource_cost := [("bw", (2, "weird"))] }

/-- An application declaring "cpu" with the unrecognized domain "weird". -/
def appD : App :=
  { appA with name := "D", resource_cost := [("cpu", (3, "weird"))] }

/-- A small topology: nodes 0, 1 advertise "bw"; node 1 also "cpu";
links 10, 11 advertise "bw". -/
def topo0 : Topology where
  nodes := [0, 1]
  links := [10, 11]
  get_resources := fun e =>
    if e = 0 then [("bw", 4)]
    else if e = 1 then [("bw", 8), ("cpu", 2)]
    else [("bw", 16)]

/-- A trivial objective oracle for concrete runs. -/
def orac0 : String → List Nat → List (String × KwVal) → List Rat :=
  fun _ _ _ => [0]

/-- A caps table capping "bw" at 5. -/
def caps0 : Caps where
  resources := ["bw"]
  capsOf := fun _ => 5

/-- A network configuration exposing `caps0`. -/
def nc0 : NetworkConfig where
  get_caps := some caps0

/-- A one-cell dictionary heap for the frame-property witness. -/
def store0 : Store := [[("resource", KwVal.s "bw")]]

/-- One application referencing the single dictionary of `store0`. -/
def objApps0 : List ObjApp :=
  [{ name := "A", obj_fn := "minlinkload", obj_args := [], kwargsRef := 0,
     obj_tc := [0] }]


/-! ### Lemmas: dictionary primitives -/

theorem dlookup_isSome_iff {α : Type} (k : String) (l : List (String × α)) :
    (dlookup k l).isSome = true ↔ k ∈ l.map Prod.fst := by
  induction l with
  | nil => simp [dlookup]
  | cons p rest ih =>
    obtain ⟨k2, v⟩ := p
    by_cases h : k2 = k
    · subst h; simp [dlookup]
    · simp only [dlookup, if_neg h, List.map_cons, List.mem_cons, ih]
      constructor
      · exact Or.inr
      · rintro (h1 | h2)
        · exact absurd h1.symm h
        · exact h2

theorem dlookup_dictSet_same {α : Type} (d : List (String × α)) (k : String)
    (v : α) : dlookup k (dictSet d k v) = some v := by
  induction d with
  | nil => simp [dictSet, dlookup]
  | cons p rest ih =>
    obtain ⟨k2, v2⟩ := p
    by_cases hk : k2 = k
    · simp [dictSet, hk, dlookup]
    · simp [dictSet, hk, dlookup, ih]

theorem dlookup_dictSet_other {α : Type} (d : List (String × α))
    (k k2 : String) (v : α) (hne : k2 ≠ k) :
    dlookup k2 (dictSet d k v) = dlookup k2 d := by
  have hne2 : ¬ (k = k2) := fun h => hne h.symm
  induction d with
  | nil => simp [dictSet, dlookup, hne2]
  | cons p rest ih =>
    obtain ⟨k3, v3⟩ := p
    by_cases hk : k3 = k
    · subst hk
      have h32 : ¬ (k3 = k2) := hne2
      simp [dictSet, dlookup, hne2, h32]
    · by_cases h3 : k3 = k2 <;> simp [dictSet, dlookup, hk, h3, ih, hne]

/-! ### Lemmas: the resource set `rset` and the contribution list -/

theorem mem_insertUniq (acc : List String) (x r : String) :
    r ∈ insertUniq acc x ↔ r ∈ acc ∨ r = x := by
  unfold insertUniq
  by_cases h : x ∈ acc
  · rw [if_pos h]
    constructor
    · exact Or.inl
    · rintro (h1 | h1)
      · exact h1
      · exact h1 ▸ h
  · rw [if_neg h]
    simp

theorem mem_foldl_insertUniq (l : List String) :
    ∀ acc r, r ∈ l.foldl insertUniq acc ↔ r ∈ acc ∨ r ∈ l := by
  induction l with
  | nil => simp
  | cons x rest ih =>
    intro acc r
    simp only [List.foldl_cons, ih, mem_insertUniq, List.mem_cons]
    tauto

theorem nodup_insertUniq (acc : List String) (x : String) (h : acc.Nodup) :
    (insertUniq acc x).Nodup := by
  unfold insertUniq
  by_cases hx : x ∈ acc
  · rwa [if_pos hx]
  · rw [if_neg hx]
    simpa [List.nodup_append, h] using hx

theorem nodup_foldl_insertUniq (l : List String) :
    ∀ acc, acc.Nodup → (l.foldl insertUniq acc).Nodup := by
  induction l with
  | nil => exact fun acc h => h
  | cons x rest ih =>
    intro acc h
    exact ih _ (nodup_insertUniq acc x h)

theorem mem_rset (apps : List App) (r : String) :
    r ∈ rset apps ↔ ∃ a ∈ apps, (dlookup r a.resource_cost).isSome = true := by
  have aux : ∀ (l : List App) (acc : List String),
      r ∈ l.foldl
          (fun acc a => (a.resource_cost.map Prod.fst).foldl insertUniq acc)
          acc
        ↔ r ∈ acc ∨ ∃ a ∈ l, r ∈ a.resource_cost.map Prod.fst := by
    intro l
    induction l with
    | nil => simp
    | cons a rest ih =>
      intro acc
      simp only [List.foldl_cons, ih, mem_foldl_insertUniq, List.mem_cons]
      constructor
      · rintro (⟨h1 | h1⟩ | ⟨b, hb, h2⟩)
        · exact Or.inl h1
        · exact Or.inr ⟨a, Or.inl rfl, h1⟩
        · exact Or.inr ⟨b, Or.inr hb, h2⟩
      · rintro (h1 | ⟨b, hb | hb, h2⟩)
        · exact Or.inl (Or.inl h1)
        · exact Or.inl (Or.inr (hb ▸ h2))
        · exact Or.inr ⟨b, hb, h2⟩
  unfold rset
  rw [aux apps []]
  simp only [List.not_mem_nil, false_or]
  constructor
  · rintro ⟨a, ha, hm⟩
    exact ⟨a, ha, (dlookup_isSome_iff r a.resource_cost).mpr hm⟩
  · rintro ⟨a, ha, hm⟩
    exact ⟨a, ha, (dlookup_isSome_iff r a.resource_cost).mp hm⟩

theorem rset_nodup (apps : List App) : (rset apps).Nodup := by
  have aux : ∀ (l : List App) (acc : List String), acc.Nodup →
      (l.foldl
        (fun acc a => (a.resource_cost.map Prod.fst).foldl insertUniq acc)
        acc).Nodup := by
    intro l
    induction l with
    | nil => exact fun acc h => h
    | cons a rest ih =>
      intro acc h
      exact ih _ (nodup_foldl_insertUniq _ _ h)
  exact aux apps [] List.nodup_nil

theorem mem_contribs (apps : List App) (r : String) (x : Nat × String) :
    x ∈ contribs apps r
      ↔ ∃ a ∈ apps, dlookup r a.resource_cost = some x := by
  simp [contribs, List.mem_filterMap]

theorem contribs_map_fst (apps : List App) (r : String) :
    (contribs apps r).map Prod.fst
      = (apps.filter fun a => (dlookup r a.resource_cost).isSome).map
          fun a => ((dlookup r a.resource_cost).getD (0, "")).1 := by
  induction apps with
  | nil => rfl
  | cons a rest ih =>
    unfold contribs at ih ⊢
    cases h : dlookup r a.resource_cost with
    | none => simp [List.filterMap_cons, h, List.filter_cons, ih]
    | some x => simp [List.filterMap_cons, h, List.filter_cons, ih]

theorem contribs_ne_nil_of_mem_rset (apps : List App) (r : String)
    (h : r ∈ rset apps) : contribs apps r ≠ [] := by
  rw [mem_rset] at h
  obtain ⟨a, ha, hs⟩ := h
  obtain ⟨x, hx⟩ := Option.isSome_iff_exists.mp hs
  intro hnil
  have : x ∈ contribs apps r := (mem_contribs apps r x).mpr ⟨a, ha, hx⟩
  rw [hnil] at this
  exact List.not_mem_nil x this

/-! ### Lemmas: one iteration of the consume loop -/

theorem processResource_ok (apps : List App) (topo : Topology) (p : PPTC)
    (r : String) (h : goodResource apps r = true) :
    processResource apps topo p r = .ok (consumeEvOf apps topo p r) := by
  unfold goodResource modesConsistent modeOf at h
  unfold processResource consumeEvOf modeOf
  cases hm : (contribs apps r).map Prod.snd with
  | nil => rw [hm] at h; simp at h
  | cons m ms =>
    rw [hm] at h
    dsimp only at h ⊢
    simp only [List.headD_cons] at h ⊢
    rw [Bool.and_eq_true] at h
    have h1 : (ms.all fun x => x == m) = true := h.1
    have h2 : (m == NODES || m == LINKS) = true := h.2
    rw [if_pos h1]
    by_cases hN : m = NODES
    · rw [if_pos hN, if_pos hN]
    · have hL : m = LINKS := by
        rw [Bool.or_eq_true] at h2
        rcases h2 with hh | hh
        · exact absurd (by simpa using hh) hN
        · simpa using hh
      rw [if_neg hN, if_pos hL, if_neg hN]

theorem processResource_ok_inv (apps : List App) (topo : Topology) (p : PPTC)
    (r : String) (ev : Event)
    (h : processResource apps topo p r = .ok ev) :
    goodResource apps r = true ∧ ev = consumeEvOf apps topo p r := by
  unfold goodResource modesConsistent modeOf
  unfold processResource at h
  cases hm : (contribs apps r).map Prod.snd with
  | nil =>
    rw [hm] at h
    dsimp only at h
    exact absurd h (by simp)
  | cons m ms =>
    rw [hm] at h
    dsimp only at h ⊢
    simp only [List.headD_cons]
    by_cases h1 : (ms.all fun x => x == m) = true
    · rw [if_pos h1] at h
      by_cases h2 : m = NODES
      · rw [if_pos h2] at h
        refine ⟨by rw [h1]; simp [h2], ?_⟩
        unfold consumeEvOf modeOf
        rw [hm]
        simp only [List.headD_cons]
        rw [if_pos h2]
        simpa using h.symm
      · rw [if_neg h2] at h
        by_cases h3 : m = LINKS
        · rw [if_pos h3] at h
          refine ⟨by rw [h1]; simp [h3], ?_⟩
          unfold consumeEvOf modeOf
          rw [hm]
          simp only [List.headD_cons]
          rw [if_neg h2]
          simpa using h.symm
        · rw [if_neg h3] at h
          exact absurd h (by simp)
    · rw [if_neg h1] at h
      exact absurd h (by simp)

theorem processResource_error_of_unknown (apps : List App) (topo : Topology)
    (p : PPTC) (r : String)
    (hcons : modesConsistent apps r = true)
    (hn : modeOf apps r ≠ NODES) (hl : modeOf apps r ≠ LINKS) :
    processResource apps topo p r
      = .error (.invalidConfig "resource owner" (modeOf apps r)) := by
  unfold modesConsistent at hcons
  unfold modeOf at hn hl ⊢
  unfold processResource
  cases hm : (contribs apps r).map Prod.snd with
  | nil => rw [hm] at hcons; simp at hcons
  | cons m ms =>
    rw [hm] at hcons hn hl
    dsimp only at hcons ⊢
    simp only [List.headD_cons] at hn hl ⊢
    rw [if_pos hcons, if_neg hn, if_neg hl]

theorem processResource_error_inv (apps : List App) (topo : Topology)
    (p : PPTC) (r : String) (e : Err)
    (hcons : modesConsistent apps r = true)
    (h : processResource apps topo p r = .error e) :
    e = .invalidConfig "resource owner" (modeOf apps r)
      ∧ modeOf apps r ≠ NODES ∧ modeOf apps r ≠ LINKS := by
  unfold modesConsistent at hcons
  unfold processResource at h
  unfold modeOf
  cases hm : (contribs apps r).map Prod.snd with
  | nil => rw [hm] at hcons; simp at hcons
  | cons m ms =>
    rw [hm] at hcons h
    dsimp only at hcons h
    simp only [List.headD_cons]
    rw [if_pos hcons] at h
    by_cases h2 : m = NODES
    · rw [if_pos h2] at h
      exact absurd h (by simp)
    · rw [if_neg h2] at h
      by_cases h3 : m = LINKS
      · rw [if_pos h3] at h
        exact absurd h (by simp)
      · rw [if_neg h3] at h
        simp only [Except.error.injEq] at h
        exact ⟨h.symm, h2, h3⟩

theorem processResource_assertFail (apps : List App) (topo : Topology)
    (p : PPTC) (r : String) (m1 m2 : String)
    (h1 : m1 ∈ (contribs apps r).map Prod.snd)
    (h2 : m2 ∈ (contribs apps r).map Prod.snd)
    (hne : m1 ≠ m2) :
    processResource apps topo p r = .error .assertFail := by
  unfold processResource
  cases hm : (contribs apps r).map Prod.snd with
  | nil => rw [hm] at h1; exact absurd h1 (List.not_mem_nil m1)
  | cons m ms =>
    rw [hm] at h1 h2
    have hall : ¬ (ms.all (· == m) = true) := by
      intro hall
      have heq : ∀ x ∈ m :: ms, x = m := by
        intro x hx
        rcases List.mem_cons.mp hx with hx | hx
        · exact hx
        · simpa using List.all_eq_true.mp hall x hx
      exact hne ((heq m1 h1).trans (heq m2 h2).symm)
    simp [hall]

/-! ### Lemmas: the consume loop -/

theorem consumeList_all_good (apps : List App) (topo : Topology) (p : PPTC)
    (rs : List String) (h : ∀ r ∈ rs, goodResource apps r = true) :
    consumeList apps topo p rs = (rs.map (consumeEvOf apps topo p), none) := by
  induction rs with
  | nil => rfl
  | cons r rest ih =>
    have hr := processResource_ok apps topo p r (h r (List.mem_cons_self r rest))
    have hrest := ih fun x hx => h x (List.mem_cons_of_mem r hx)
    simp [consumeList, hr, hrest]

theorem consumeList_mem_ok (apps : List App) (topo : Topology) (p : PPTC)
    (rs : List String) (ev : Event)
    (h : ev ∈ (consumeList apps topo p rs).1) :
    ∃ r ∈ rs, processResource apps topo p r = .ok ev := by
  induction rs with
  | nil => exact absurd h (List.not_mem_nil ev)
  | cons r rest ih =>
    unfold consumeList at h
    cases hp : processResource apps topo p r with
    | error e =>
      rw [hp] at h
      exact absurd h (List.not_mem_nil ev)
    | ok ev2 =>
      rw [hp] at h
      rcases List.mem_cons.mp h with h1 | h1
      · exact ⟨r, List.mem_cons_self r rest, h1 ▸ hp⟩
      · obtain ⟨r2, hr2, hok⟩ := ih h1
        exact ⟨r2, List.mem_cons_of_mem r hr2, hok⟩

theorem consumeList_isSome_of_bad (apps : List App) (topo : Topology)
    (p : PPTC) (rs : List String) (r : String) (e : Err)
    (hr : r ∈ rs) (he : processResource apps topo p r = .error e) :
    ((consumeList apps topo p rs).2).isSome = true := by
  induction rs with
  | nil => exact absurd hr (List.not_mem_nil r)
  | cons x rest ih =>
    unfold consumeList
    cases hp : processResource apps topo p x with
    | error e2 => simp
    | ok ev =>
      rcases List.mem_cons.mp hr with h1 | h1
      · have hcontra : processResource apps topo p x = .error e := h1 ▸ he
        rw [hp] at hcontra
        exact absurd hcontra (by simp)
      · simpa using ih h1

theorem consumeList_err_shape (apps : List App) (topo : Topology) (p : PPTC)
    (rs : List String)
    (hcons : ∀ r ∈ rs, modesConsistent apps r = true) (e : Err)
    (he : (consumeList apps topo p rs).2 = some e) :
    ∃ m, e = .invalidConfig "resource owner" m ∧ m ≠ NODES ∧ m ≠ LINKS := by
  induction rs with
  | nil => exact absurd he (by simp [consumeList])
  | cons x rest ih =>
    unfold consumeList at he
    cases hp : processResource apps topo p x with
    | error e2 =>
      rw [hp] at he
      simp only [Option.some.injEq] at he
      obtain ⟨h1, h2, h3⟩ := processResource_error_inv apps topo p x e2
        (hcons x (List.mem_cons_self x rest)) hp
      exact ⟨modeOf apps x, he ▸ h1, h2, h3⟩
    | ok ev =>
      rw [hp] at he
      exact ih (fun r hr => hcons r (List.mem_cons_of_mem x hr)) he

/-! ### Lemmas: trace extractors on the event blocks -/

theorem consumedRes_append (l1 l2 : List Event) :
    consumedRes (l1 ++ l2) = consumedRes l1 ++ consumedRes l2 :=
  List.filterMap_append l1 l2 _

theorem capCallsIn_append (l1 l2 : List Event) :
    capCallsIn (l1 ++ l2) = capCallsIn l1 ++ capCallsIn l2 :=
  List.filterMap_append l1 l2 _

theorem objCallsIn_append (l1 l2 : List Event) :
    objCallsIn (l1 ++ l2) = objCallsIn l1 ++ objCallsIn l2 :=
  List.filterMap_append l1 l2 _

theorem composeCallsIn_append (l1 l2 : List Event) :
    composeCallsIn (l1 ++ l2) = composeCallsIn l1 ++ composeCallsIn l2 :=
  List.filterMap_append l1 l2 _

theorem consumedRes_map_consumeEvOf (apps : List App) (topo : Topology)
    (p : PPTC) (rs : List String) :
    consumedRes (rs.map (consumeEvOf apps topo p)) = rs := by
  induction rs with
  | nil => rfl
  | cons r rest ih => simp [consumedRes, consumeEvOf, List.filterMap_cons] at ih ⊢; exact ih

theorem consumedRes_capEventsOf (nc : Option NetworkConfig) :
    consumedRes (capEventsOf nc) = [] := by
  match nc with
  | none => rfl
  | some c =>
    match hc : c.get_caps with
    | none => simp [capEventsOf, hc, consumedRes]
    | some caps =>
      simp only [capEventsOf, hc]
      induction caps.resources with
      | nil => rfl
      | cons r rest ih => simp [consumedRes, List.filterMap_cons]

theorem consumedRes_named (apps : List App) :
    consumedRes (apps.map Event.add_named_constraints) = [] := by
  induction apps with
  | nil => rfl
  | cons a rest ih => simp [consumedRes, List.filterMap_cons]

theorem consumedRes_objEvents (apps : List App) :
    consumedRes (apps.map fun a =>
      Event.add_single_objective a.obj_fn a.obj_args (augKwargs a)) = [] := by
  induction apps with
  | nil => rfl
  | cons a rest ih => simp [consumedRes, List.filterMap_cons]

theorem consumedRes_composeEv (objs : List (List Rat)) (em fm : String)
    (ws : List Rat) :
    consumedRes [Event.compose_objectives objs em fm ws] = [] := rfl

/-! ### Lemmas: the full composition trace -/

theorem compose_trace_loop_err (oracle : String → List Nat →
      List (String × KwVal) → List Rat)
    (apps : List App) (topo : Topology) (nc : Option NetworkConfig)
    (em fm : String) (w : Option (List Rat)) (e : Err)
    (he : (consumeList apps topo (all_pptc apps) (rset apps)).2 = some e) :
    compose_apps oracle apps topo nc em fm w
      = ((consumeList apps topo (all_pptc apps) (rset apps)).1, some e) := by
  simp only [compose_apps, he]

theorem compose_trace_ok (oracle : String → List Nat →
      List (String × KwVal) → List Rat)
    (apps : List App) (topo : Topology) (nc : Option NetworkConfig)
    (em fm : String) (w : Option (List Rat)) (ws : List Rat)
    (hgood : ∀ r ∈ rset apps, goodResource apps r = true)
    (hw : weightsOf apps w = .ok ws) :
    compose_apps oracle apps topo nc em fm w
      = ((rset apps).map (consumeEvOf apps topo (all_pptc apps))
          ++ capEventsOf nc ++ apps.map Event.add_named_constraints
          ++ (apps.map fun a =>
               Event.add_single_objective a.obj_fn a.obj_args (augKwargs a))
          ++ [Event.compose_objectives
               (apps.map fun a => oracle a.obj_fn a.obj_args (augKwargs a))
               em fm ws],
         none) := by
  simp only [compose_apps,
    consumeList_all_good apps topo (all_pptc apps) (rset apps) hgood, hw]

theorem compose_trace_werr (oracle : String → List Nat →
      List (String × KwVal) → List Rat)
    (apps : List App) (topo : Topology) (nc : Option NetworkConfig)
    (em fm : String) (w : Option (List Rat)) (e : Err)
    (hgood : ∀ r ∈ rset apps, goodResource apps r = true)
    (hw : weightsOf apps w = .error e) :
    compose_apps oracle apps topo nc em fm w
      = ((rset apps).map (consumeEvOf apps topo (all_pptc apps))
          ++ capEventsOf nc ++ apps.map Event.add_named_constraints,
         some e) := by
  simp only [compose_apps,
    consumeList_all_good apps topo (all_pptc apps) (rset apps) hgood, hw]

theorem mem_rset_of_contrib (apps : List App) (r : String) (x : Nat × String)
    (hx : x ∈ contribs apps r) : r ∈ rset apps := by
  rw [mem_rset]
  obtain ⟨a, ha, hl⟩ := (mem_contribs apps r x).mp hx
  exact ⟨a, ha, by simp [hl]⟩

theorem not_consumed_of_error (apps : List App) (topo : Topology) (p : PPTC)
    (rs : List String) (r : String) (e : Err)
    (he : processResource apps topo p r = .error e) :
    r ∉ consumedRes (consumeList apps topo p rs).1 := by
  intro hmem
  unfold consumedRes at hmem
  obtain ⟨ev, hev, hr⟩ := List.mem_filterMap.mp hmem
  obtain ⟨r2, _, hok⟩ := consumeList_mem_ok apps topo p rs ev hev
  obtain ⟨_, hevEq⟩ := processResource_ok_inv apps topo p r2 ev hok
  subst hevEq
  simp only [consumeEvOf, Option.some.injEq] at hr
  subst hr
  rw [hok] at he
  exact absurd he (by simp)

theorem all_pptc_foldl_mem (apps : List App) (tc : TrafficClass) (pth : Path) :
    ∀ init : PPTC,
      (pth ∈ (apps.foldl (fun acc a => acc.update a.pptc) init) tc
        ↔ pth ∈ init tc ∨ ∃ a ∈ apps, pth ∈ a.pptc tc) := by
  induction apps with
  | nil => simp
  | cons a rest ih =>
    intro init
    simp only [List.foldl_cons, ih, PPTC.update, Finset.mem_union,
      List.mem_cons]
    constructor
    · rintro (⟨h1 | h1⟩ | ⟨b, hb, h2⟩)
      · exact Or.inl h1
      · exact Or.inr ⟨a, Or.inl rfl, h1⟩
      · exact Or.inr ⟨b, Or.inr hb, h2⟩
    · rintro (h1 | ⟨b, hb | hb, h2⟩)
      · exact Or.inl (Or.inl h1)
      · exact Or.inl (Or.inr (hb ▸ h2))
      · exact Or.inr ⟨b, hb, h2⟩

theorem mem_all_pptc (apps : List App) (tc : TrafficClass) (pth : Path) :
    pth ∈ all_pptc apps tc ↔ ∃ b ∈ apps, pth ∈ b.pptc tc := by
  unfold all_pptc
  rw [all_pptc_foldl_mem]
  simp

/-! ### Claims -/

/-- C2: for every traffic class, the merged path-set maps that class to the
union of all per-application path collections for it, and merging an
application already present again does not change the result (the
`PPTC.update` merge is modelled from the spec, the class itself living
outside the analysed source). -/
theorem c2_path_union (apps : List App) (a : App) (tc : TrafficClass)
    (ha : a ∈ apps) :
    (∀ pth : Path, pth ∈ all_pptc apps tc ↔ ∃ b ∈ apps, pth ∈ b.pptc tc)
      ∧ all_pptc (apps ++ [a]) tc = all_pptc apps tc := by
  refine ⟨mem_all_pptc apps tc, ?_⟩
  ext pth
  rw [mem_all_pptc, mem_all_pptc]
  constructor
  · rintro ⟨b, hb, hp⟩
    rcases List.mem_append.mp hb with h1 | h1
    · exact ⟨b, h1, hp⟩
    · rw [List.mem_singleton.mp h1] at hp
      exact ⟨a, ha, hp⟩
  · rintro ⟨b, hb, hp⟩
    exact ⟨b, List.mem_append_left _ hb, hp⟩

/-- Witness for C2 on the concrete two-application scenario. -/
theorem c2_path_union_witness :
    all_pptc ([appA, appB] ++ [appA]) 0 = all_pptc [appA, appB] 0 :=
  (c2_path_union [appA, appB] appA 0 (List.mem_cons_self appA [appB])).2

/-- C7: for every resource, the NODE-scoped capacity map contains exactly the
topology's nodes whose advertised-resource table includes that resource,
each mapped to its advertised capacity; symmetrically for links.
(`node_capacities`/`link_capacities` are the capacity maps the consume
loop hands to the model builder's consume call.) -/
theorem c7_capacity_completeness (topo : Topology) (r : String) :
    (∀ n c, (n, c) ∈ node_capacities topo r
        ↔ n ∈ topo.nodes ∧ dlookup r (topo.get_resources n) = some c)
      ∧ (∀ l c, (l, c) ∈ link_capacities topo r
        ↔ l ∈ topo.links ∧ dlookup r (topo.get_resources l) = some c) := by
  constructor
  · intro n c
    simp only [node_capacities, node_caps, List.mem_filterMap, List.mem_map,
      Option.map_eq_some']
    constructor
    · rintro ⟨p, ⟨e, he, rfl⟩, ⟨c2, hc2, heq⟩⟩
      obtain ⟨h1, h2⟩ := Prod.mk.injEq .. ▸ heq
      exact ⟨h1 ▸ he, by rw [← h1, hc2, h2]⟩
    · rintro ⟨hn, hc⟩
      exact ⟨(n, topo.get_resources n), ⟨n, hn, rfl⟩, c, hc, rfl⟩
  · intro l c
    simp only [link_capacities, link_caps, List.mem_filterMap, List.mem_map,
      Option.map_eq_some']
    constructor
    · rintro ⟨p, ⟨e, he, rfl⟩, ⟨c2, hc2, heq⟩⟩
      obtain ⟨h1, h2⟩ := Prod.mk.injEq .. ▸ heq
      exact ⟨h1 ▸ he, by rw [← h1, hc2, h2]⟩
    · rintro ⟨hl, hc⟩
      exact ⟨(l, topo.get_resources l), ⟨l, hl, rfl⟩, c, hc, rfl⟩

/-- C1 counterexample: on the domain-mismatch scenario (applications A and B
declare "bw" as NODE-scoped resp. LINK-scoped) the composition aborts with a
bare assertion failure, which is not a configuration error and carries
neither the resource name nor the domain values — refuting the claim that
composition fails with a configuration error naming them. -/
theorem c1_counterexample :
    (compose_apps orac0 [appA, appBlink] topo0 none "avg" "weighted" none).2
      = some Err.assertFail
    ∧ ∀ w v, Err.assertFail ≠ Err.invalidConfig w v := by
  refine ⟨by decide, ?_⟩
  intro w v h
  exact Err.noConfusion h

/-- C1 (amended): for every pair of applications declaring the same resource
with different ownership domains, the domain-consistency check for that
resource fails as a bare assertion (carrying no resource or domain
information), the composition as a whole aborts with an error, and no
consume call is ever submitted for that resource. -/
theorem c1_domain_mismatch
    (oracle : String → List Nat → List (String × KwVal) → List Rat)
    (apps : List App) (topo : Topology) (nc : Option NetworkConfig)
    (em fm : String) (w : Option (List Rat)) (r m1 m2 : String)
    (h1 : m1 ∈ (contribs apps r).map Prod.snd)
    (h2 : m2 ∈ (contribs apps r).map Prod.snd)
    (hne : m1 ≠ m2) :
    processResource apps topo (all_pptc apps) r = .error Err.assertFail
      ∧ (compose_apps oracle apps topo nc em fm w).2.isSome = true
      ∧ r ∉ consumedRes (compose_apps oracle apps topo nc em fm w).1 := by
  have hproc :=
    processResource_assertFail apps topo (all_pptc apps) r m1 m2 h1 h2 hne
  obtain ⟨x, hx⟩ : ∃ x, x ∈ contribs apps r := by
    cases hc : contribs apps r with
    | nil => rw [hc] at h1; simp at h1
    | cons y ys => exact ⟨y, hc ▸ List.mem_cons_self y ys⟩
  have hr : r ∈ rset apps := mem_rset_of_contrib apps r x hx
  have hsome := consumeList_isSome_of_bad apps topo (all_pptc apps)
    (rset apps) r Err.assertFail hr hproc
  obtain ⟨e, he⟩ := Option.isSome_iff_exists.mp hsome
  have htr := compose_trace_loop_err oracle apps topo nc em fm w e he
  refine ⟨hproc, ?_, ?_⟩
  · rw [htr]
    rfl
  · rw [htr]
    exact not_consumed_of_error apps topo (all_pptc apps) (rset apps) r _ hproc

/-- Witness for the amended C1 on the domain-mismatch scenario. -/
theorem c1_domain_mismatch_witness :
    processResource [appA, appBlink] topo0 (all_pptc [appA, appBlink]) "bw"
      = .error Err.assertFail :=
  (c1_domain_mismatch orac0 [appA, appBlink] topo0 none "avg" "weighted" none
    "bw" NODES LINKS (by decide) (by decide) (by decide)).1

/-- C9 counterexample: two runs that differ only in the name of the
offending resource ("bw" with unknown domain "weird" vs "cpu" with unknown
domain "weird") abort with identical configuration errors, so the raised
error cannot identify the offending resource name. -/
theorem c9_counterexample :
    (compose_apps orac0 [appC] topo0 none "avg" "weighted" none).2
      = some (Err.invalidConfig "resource owner" "weird")
    ∧ (compose_apps orac0 [appD] topo0 none "avg" "weighted" none).2
      = some (Err.invalidConfig "resource owner" "weird")
    ∧ rset [appC] ≠ rset [appD] := by
  exact ⟨by decide, by decide, by decide⟩

/-- C9 (amended): for every resource whose consistent ownership domain is
neither NODE- nor LINK-scoped, the check for that resource raises a
configuration error identifying the bad domain value (but not the resource
name — its payload is the fixed tag "resource owner" plus the domain), the
composition aborts with such a configuration error, and no consume call is
submitted for that resource. -/
theorem c9_unknown_mode
    (oracle : String → List Nat → List (String × KwVal) → List Rat)
    (apps : List App) (topo : Topology) (nc : Option NetworkConfig)
    (em fm : String) (w : Option (List Rat)) (r : String)
    (hr : r ∈ rset apps)
    (hcons : ∀ r2 ∈ rset apps, modesConsistent apps r2 = true)
    (hn : modeOf apps r ≠ NODES) (hl : modeOf apps r ≠ LINKS) :
    processResource apps topo (all_pptc apps) r
        = .error (.invalidConfig "resource owner" (modeOf apps r))
      ∧ (∃ m2, (compose_apps oracle apps topo nc em fm w).2
            = some (Err.invalidConfig "resource owner" m2)
            ∧ m2 ≠ NODES ∧ m2 ≠ LINKS)
      ∧ r ∉ consumedRes (compose_apps oracle apps topo nc em fm w).1 := by
  have hproc := processResource_error_of_unknown apps topo (all_pptc apps) r
    (hcons r hr) hn hl
  have hsome := consumeList_isSome_of_bad apps topo (all_pptc apps)
    (rset apps) r _ hr hproc
  obtain ⟨e, he⟩ := Option.isSome_iff_exists.mp hsome
  have htr := compose_trace_loop_err oracle apps topo nc em fm w e he
  obtain ⟨m2, hm2, hmn, hml⟩ := consumeList_err_shape apps topo
    (all_pptc apps) (rset apps) hcons e he
  refine ⟨hproc, ⟨m2, ?_, hmn, hml⟩, ?_⟩
  · rw [htr]
    exact congrArg some hm2
  · rw [htr]
    exact not_consumed_of_error apps topo (all_pptc apps) (rset apps) r _ hproc

/-- Witness for the amended C9 on the unknown-domain scenario. -/
theorem c9_unknown_mode_witness :
    processResource [appC] topo0 (all_pptc [appC]) "bw"
      = .error (Err.invalidConfig "resource owner" "weird") :=
  (c9_unknown_mode orac0 [appC] topo0 none "avg" "weighted" none "bw"
    (by decide) (by decide) (by decide) (by decide)).1

theorem modes_all_eq (apps : List App) (r : String)
    (h : modesConsistent apps r = true) :
    ∀ x ∈ (contribs apps r).map Prod.snd, x = modeOf apps r := by
  unfold modesConsistent at h
  unfold modeOf
  cases hm : (contribs apps r).map Prod.snd with
  | nil => simp
  | cons m ms =>
    rw [hm] at h
    dsimp only at h
    intro x hx
    simp only [List.headD_cons]
    rcases List.mem_cons.mp hx with h1 | h1
    · exact h1
    · simpa using List.all_eq_true.mp h x h1

theorem mem_consumedRes_of_consume (tr : List Event) (p : PPTC) (r : String)
    (cf : List Nat) (caps : List (Nat × Rat)) (m : String)
    (h : Event.consume p r cf caps m ∈ tr) : r ∈ consumedRes tr := by
  unfold consumedRes
  exact List.mem_filterMap.mpr ⟨Event.consume p r cf caps m, h, rfl⟩

theorem compose_trace_split
    (oracle : String → List Nat → List (String × KwVal) → List Rat)
    (apps : List App) (topo : Topology) (nc : Option NetworkConfig)
    (em fm : String) (w : Option (List Rat))
    (hgood : ∀ r ∈ rset apps, goodResource apps r = true) :
    ∃ rest : List Event,
      (compose_apps oracle apps topo nc em fm w).1
        = (rset apps).map (consumeEvOf apps topo (all_pptc apps)) ++ rest
      ∧ consumedRes rest = [] := by
  cases hw : weightsOf apps w with
  | ok ws =>
    refine ⟨capEventsOf nc ++ apps.map Event.add_named_constraints
      ++ (apps.map fun a =>
           Event.add_single_objective a.obj_fn a.obj_args (augKwargs a))
      ++ [Event.compose_objectives
           (apps.map fun a => oracle a.obj_fn a.obj_args (augKwargs a))
           em fm ws], ?_, ?_⟩
    · rw [compose_trace_ok oracle apps topo nc em fm w ws hgood hw]
      simp [List.append_assoc]
    · simp [consumedRes_append, consumedRes_capEventsOf, consumedRes_named,
        consumedRes_objEvents, consumedRes_composeEv]
  | error e =>
    refine ⟨capEventsOf nc ++ apps.map Event.add_named_constraints, ?_, ?_⟩
    · rw [compose_trace_werr oracle apps topo nc em fm w e hgood hw]
      simp [List.append_assoc]
    · simp [consumedRes_append, consumedRes_capEventsOf, consumedRes_named]

/-- C3: under consistent, recognized ownership domains, the composition
submits exactly one consume call per referenced resource name (none for
unreferenced names), and every consume call carries the merged path set,
the cost functions of exactly the applications referencing that resource
in input order, the ownership domain shared by all of them, and the
matching node- or link-capacity map. -/
theorem c3_consume_calls
    (oracle : String → List Nat → List (String × KwVal) → List Rat)
    (apps : List App) (topo : Topology) (nc : Option NetworkConfig)
    (em fm : String) (w : Option (List Rat))
    (hgood : ∀ r ∈ rset apps, goodResource apps r = true) :
    (∀ r, (consumedRes (compose_apps oracle apps topo nc em fm w).1).count r
        = if r ∈ rset apps then 1 else 0)
      ∧ (∀ r, r ∈ rset apps
          ↔ ∃ a ∈ apps, (dlookup r a.resource_cost).isSome = true)
      ∧ (∀ p r cf caps m,
          Event.consume p r cf caps m
              ∈ (compose_apps oracle apps topo nc em fm w).1 →
            p = all_pptc apps
            ∧ cf = (apps.filter fun a =>
                  (dlookup r a.resource_cost).isSome).map
                (fun a => ((dlookup r a.resource_cost).getD (0, "")).1)
            ∧ (∀ a ∈ apps, ∀ f m2,
                dlookup r a.resource_cost = some (f, m2) → m2 = m)
            ∧ ((m = NODES ∧ caps = node_capacities topo r)
               ∨ (m = LINKS ∧ caps = link_capacities topo r))) := by
  obtain ⟨rest, htr, hrest⟩ :=
    compose_trace_split oracle apps topo nc em fm w hgood
  refine ⟨?_, fun r => mem_rset apps r, ?_⟩
  · intro r
    rw [htr, consumedRes_append, consumedRes_map_consumeEvOf, hrest,
      List.append_nil]
    by_cases hr : r ∈ rset apps
    · rw [if_pos hr]
      exact List.count_eq_one_of_mem (rset_nodup apps) hr
    · rw [if_neg hr]
      exact List.count_eq_zero_of_not_mem hr
  · intro p r cf caps m hmem
    rw [htr] at hmem
    rcases List.mem_append.mp hmem with hin | hin
    · obtain ⟨r2, hr2, hev⟩ := List.mem_map.mp hin
      unfold consumeEvOf at hev
      obtain ⟨hp, hr, hcf, hcaps, hm⟩ :
          all_pptc apps = p ∧ r2 = r
            ∧ (contribs apps r2).map Prod.fst = cf
            ∧ (if modeOf apps r2 = NODES then node_capacities topo r2
               else link_capacities topo r2) = caps
            ∧ modeOf apps r2 = m := by
        injection hev with h1 h2 h3 h4 h5
        exact ⟨h1, h2, h3, h4, h5⟩
      subst hr
      have hg : (modesConsistent apps r2
          && (modeOf apps r2 == NODES || modeOf apps r2 == LINKS)) = true := by
        simpa [goodResource] using hgood r2 hr2
      rw [Bool.and_eq_true] at hg
      have hcons : modesConsistent apps r2 = true := hg.1
      refine ⟨hp.symm, ?_, ?_, ?_⟩
      · rw [← hcf, contribs_map_fst]
      · intro a ha f m2 hl
        have hx : (f, m2) ∈ contribs apps r2 :=
          (mem_contribs apps r2 (f, m2)).mpr ⟨a, ha, hl⟩
        have : m2 ∈ (contribs apps r2).map Prod.snd :=
          List.mem_map.mpr ⟨(f, m2), hx, rfl⟩
        rw [← hm]
        exact modes_all_eq apps r2 hcons m2 this
      · have hrec : (modeOf apps r2 == NODES || modeOf apps r2 == LINKS)
            = true := hg.2
        rw [Bool.or_eq_true] at hrec
        rcases hrec with hh | hh
        · have hN : modeOf apps r2 = NODES := by simpa using hh
          left
          refine ⟨hm ▸ hN, ?_⟩
          rw [← hcaps, if_pos hN]
        · by_cases hN : modeOf apps r2 = NODES
          · left
            refine ⟨hm ▸ hN, ?_⟩
            rw [← hcaps, if_pos hN]
          · have hL : modeOf apps r2 = LINKS := by simpa using hh
            right
            refine ⟨hm ▸ hL, ?_⟩
            rw [← hcaps, if_neg hN]
    · exact absurd (hrest ▸ mem_consumedRes_of_consume rest p r cf caps m hin)
        (List.not_mem_nil r)

/-- Witness for C3 on the end-to-end scenario: exactly one consume call is
submitted for "bw". -/
theorem c3_consume_calls_witness :
    (consumedRes (compose_apps orac0 [appA, appB] topo0 none "avg" "weighted"
        none).1).count "bw"
      = if "bw" ∈ rset [appA, appB] then 1 else 0 :=
  (c3_consume_calls orac0 [appA, appB] topo0 none "avg" "weighted" none
    (by decide)).1 "bw"

/-! ### Block lemmas for the cap/objective extractors -/

theorem capCallsIn_map_consumeEvOf (apps : List App) (topo : Topology)
    (p : PPTC) (rs : List String) :
    capCallsIn (rs.map (consumeEvOf apps topo p)) = [] := by
  induction rs with
  | nil => rfl
  | cons r rest ih => simp [capCallsIn, consumeEvOf, List.filterMap_cons]

theorem capCallsIn_named (apps : List App) :
    capCallsIn (apps.map Event.add_named_constraints) = [] := by
  induction apps with
  | nil => rfl
  | cons a rest ih => simp [capCallsIn, List.filterMap_cons]

theorem capCallsIn_objEvents (apps : List App) :
    capCallsIn (apps.map fun a =>
      Event.add_single_objective a.obj_fn a.obj_args (augKwargs a)) = [] := by
  induction apps with
  | nil => rfl
  | cons a rest ih => simp [capCallsIn, List.filterMap_cons]

theorem capCallsIn_composeEv (objs : List (List Rat)) (em fm : String)
    (ws : List Rat) :
    capCallsIn [Event.compose_objectives objs em fm ws] = [] := rfl

theorem capCallsIn_capEventsOf_some (caps : Caps) (nc : NetworkConfig)
    (hc : nc.get_caps = some caps) :
    capCallsIn (capEventsOf (some nc))
      = caps.resources.map fun r => (r, caps.capsOf r, none) := by
  simp only [capEventsOf, hc]
  induction caps.resources with
  | nil => rfl
  | cons r rest ih => simpa [capCallsIn, List.filterMap_cons] using ih

theorem objCallsIn_map_consumeEvOf (apps : List App) (topo : Topology)
    (p : PPTC) (rs : List String) :
    objCallsIn (rs.map (consumeEvOf apps topo p)) = [] := by
  induction rs with
  | nil => rfl
  | cons r rest ih => simp [objCallsIn, consumeEvOf, List.filterMap_cons]

theorem objCallsIn_capEventsOf (nc : Option NetworkConfig) :
    objCallsIn (capEventsOf nc) = [] := by
  match nc with
  | none => rfl
  | some c =>
    match hc : c.get_caps with
    | none => simp [capEventsOf, hc, objCallsIn]
    | some caps =>
      simp only [capEventsOf, hc]
      induction caps.resources with
      | nil => rfl
      | cons r rest ih => simp [objCallsIn, List.filterMap_cons]

theorem objCallsIn_named (apps : List App) :
    objCallsIn (apps.map Event.add_named_constraints) = [] := by
  induction apps with
  | nil => rfl
  | cons a rest ih => simp [objCallsIn, List.filterMap_cons]

theorem objCallsIn_objEvents (apps : List App) :
    objCallsIn (apps.map fun a =>
        Event.add_single_objective a.obj_fn a.obj_args (augKwargs a))
      = apps.map fun a => (a.obj_fn, a.obj_args, augKwargs a) := by
  induction apps with
  | nil => rfl
  | cons a rest ih => simpa [objCallsIn, List.filterMap_cons] using ih

theorem objCallsIn_composeEv (objs : List (List Rat)) (em fm : String)
    (ws : List Rat) :
    objCallsIn [Event.compose_objectives objs em fm ws] = [] := rfl

theorem composeCallsIn_map_consumeEvOf (apps : List App) (topo : Topology)
    (p : PPTC) (rs : List String) :
    composeCallsIn (rs.map (consumeEvOf apps topo p)) = [] := by
  induction rs with
  | nil => rfl
  | cons r rest ih => simp [composeCallsIn, consumeEvOf, List.filterMap_cons]

theorem composeCallsIn_capEventsOf (nc : Option NetworkConfig) :
    composeCallsIn (capEventsOf nc) = [] := by
  match nc with
  | none => rfl
  | some c =>
    match hc : c.get_caps with
    | none => simp [capEventsOf, hc, composeCallsIn]
    | some caps =>
      simp only [capEventsOf, hc]
      induction caps.resources with
      | nil => rfl
      | cons r rest ih => simp [composeCallsIn, List.filterMap_cons]

theorem composeCallsIn_composeEv (objs : List (List Rat)) (em fm : String)
    (ws : List Rat) :
    composeCallsIn [Event.compose_objectives objs em fm ws]
      = [(objs, em, fm, ws)] := rfl

theorem composeCallsIn_named (apps : List App) :
    composeCallsIn (apps.map Event.add_named_constraints) = [] := by
  induction apps with
  | nil => rfl
  | cons a rest ih => simp [composeCallsIn, List.filterMap_cons]

theorem composeCallsIn_objEvents (apps : List App) :
    composeCallsIn (apps.map fun a =>
      Event.add_single_objective a.obj_fn a.obj_args (augKwargs a)) = [] := by
  induction apps with
  | nil => rfl
  | cons a rest ih => simp [composeCallsIn, List.filterMap_cons]

theorem capCallsIn_compose
    (oracle : String → List Nat → List (String × KwVal) → List Rat)
    (apps : List App) (topo : Topology) (nc : Option NetworkConfig)
    (em fm : String) (w : Option (List Rat))
    (hgood : ∀ r ∈ rset apps, goodResource apps r = true) :
    capCallsIn (compose_apps oracle apps topo nc em fm w).1
      = capCallsIn (capEventsOf nc) := by
  cases hw : weightsOf apps w with
  | ok ws =>
    rw [compose_trace_ok oracle apps topo nc em fm w ws hgood hw]
    simp [capCallsIn_append, capCallsIn_map_consumeEvOf, capCallsIn_named,
      capCallsIn_objEvents, capCallsIn_composeEv]
  | error e =>
    rw [compose_trace_werr oracle apps topo nc em fm w e hgood hw]
    simp [capCallsIn_append, capCallsIn_map_consumeEvOf, capCallsIn_named]

theorem objCallsIn_compose
    (oracle : String → List Nat → List (String × KwVal) → List Rat)
    (apps : List App) (topo : Topology) (nc : Option NetworkConfig)
    (em fm : String) (w : Option (List Rat)) (ws : List Rat)
    (hgood : ∀ r ∈ rset apps, goodResource apps r = true)
    (hw : weightsOf apps w = .ok ws) :
    objCallsIn (compose_apps oracle apps topo nc em fm w).1
      = apps.map fun a => (a.obj_fn, a.obj_args, augKwargs a) := by
  rw [compose_trace_ok oracle apps topo nc em fm w ws hgood hw]
  simp [objCallsIn_append, objCallsIn_map_consumeEvOf, objCallsIn_capEventsOf,
    objCallsIn_named, objCallsIn_objEvents, objCallsIn_composeEv]

theorem composeCallsIn_compose
    (oracle : String → List Nat → List (String × KwVal) → List Rat)
    (apps : List App) (topo : Topology) (nc : Option NetworkConfig)
    (em fm : String) (w : Option (List Rat)) (ws : List Rat)
    (hgood : ∀ r ∈ rset apps, goodResource apps r = true)
    (hw : weightsOf apps w = .ok ws) :
    composeCallsIn (compose_apps oracle apps topo nc em fm w).1
      = [(apps.map fun a => oracle a.obj_fn a.obj_args (augKwargs a),
          em, fm, ws)] := by
  rw [compose_trace_ok oracle apps topo nc em fm w ws hgood hw]
  simp [composeCallsIn_append, composeCallsIn_map_consumeEvOf,
    composeCallsIn_capEventsOf, composeCallsIn_named,
    composeCallsIn_objEvents, composeCallsIn_composeEv]

/-- C4: with no explicit weights, the composition derives each application's
weight as 1 minus its volume over the total volume and submits exactly that
weight vector to the final composition step; for volumes 10 and 30 the
derived vector is [0.75, 0.25] in input order. -/
theorem c4_derived_weights
    (oracle : String → List Nat → List (String × KwVal) → List Rat)
    (apps : List App) (topo : Topology) (nc : Option NetworkConfig)
    (em fm : String)
    (hgood : ∀ r ∈ rset apps, goodResource apps r = true)
    (_hvol : totalVolume apps ≠ 0) :
    composeCallsIn (compose_apps oracle apps topo nc em fm none).1
      = [(apps.map fun a => oracle a.obj_fn a.obj_args (augKwargs a),
          em, fm, derivedWeights apps)]
    ∧ derivedWeights apps
        = apps.map (fun a => 1 - a.volume / totalVolume apps)
    ∧ ∀ a b : App, a.volume = 10 → b.volume = 30 →
        derivedWeights [a, b] = [3/4, 1/4] := by
  refine ⟨composeCallsIn_compose oracle apps topo nc em fm none
    (derivedWeights apps) hgood rfl, ?_, ?_⟩
  · unfold derivedWeights
    rw [List.map_map]
    rfl
  · intro a b ha hb
    simp [derivedWeights, totalVolume, ha, hb]
    norm_num

/-- Witness for C4: the derived weights for volumes 10 and 30. -/
theorem c4_derived_weights_witness :
    derivedWeights [appA, appB] = [3/4, 1/4] :=
  (c4_derived_weights orac0 [appA, appB] topo0 none "avg" "weighted"
    (by decide) (by norm_num [totalVolume, appA, appB])).2.2 appA appB rfl rfl

/-- C5 (code defect): the explicit-weights check `assert 0 <= weights <= 1`
is a scalar chained comparison.  On the two-element weight vector
[1/2, 1/2] — every element of which lies in [0, 1] — the comparison of a
length-2 numpy vector with a scalar has no truth value, so composition
aborts with a ValueError instead of accepting the vector, and the final
composition step is never reached: the code cannot validate any genuine
weight vector element-wise. -/
theorem c5_scalar_weight_check :
    (∀ x ∈ [(1 : Rat)/2, 1/2], 0 ≤ x ∧ x ≤ 1)
    ∧ (compose_apps orac0 [appA, appB] topo0 none "avg" "weighted"
        (some [1/2, 1/2])).2 = some Err.valueError
    ∧ composeCallsIn (compose_apps orac0 [appA, appB] topo0 none "avg"
        "weighted" (some [1/2, 1/2])).1 = [] := by
  refine ⟨?_, by decide, by decide⟩
  intro x hx
  rcases List.mem_cons.mp hx with h | h
  · subst h; norm_num
  · rw [List.mem_singleton.mp h]; norm_num

/-- C6: without a network configuration, or with one exposing no caps table,
no capping request is submitted; with a caps table, exactly one capping
request is submitted per resource name in the table, carrying that
resource's cap values and targeting all traffic classes (`tcs = None`). -/
theorem c6_capping
    (oracle : String → List Nat → List (String × KwVal) → List Rat)
    (apps : List App) (topo : Topology) (em fm : String)
    (w : Option (List Rat))
    (hgood : ∀ r ∈ rset apps, goodResource apps r = true) :
    capCallsIn (compose_apps oracle apps topo none em fm w).1 = []
    ∧ (∀ nc : NetworkConfig, nc.get_caps = none →
        capCallsIn (compose_apps oracle apps topo (some nc) em fm w).1 = [])
    ∧ (∀ (nc : NetworkConfig) (caps : Caps), nc.get_caps = some caps →
        capCallsIn (compose_apps oracle apps topo (some nc) em fm w).1
          = caps.resources.map (fun r => (r, caps.capsOf r, none))
        ∧ (caps.resources.Nodup → ∀ r,
            ((capCallsIn (compose_apps oracle apps topo (some nc) em fm
                w).1).map (fun x => x.1)).count r
              = if r ∈ caps.resources then 1 else 0)) := by
  refine ⟨?_, ?_, ?_⟩
  · rw [capCallsIn_compose oracle apps topo none em fm w hgood]
    rfl
  · intro nc hc
    rw [capCallsIn_compose oracle apps topo (some nc) em fm w hgood]
    simp [capEventsOf, hc, capCallsIn]
  · intro nc caps hc
    have hmain :
        capCallsIn (compose_apps oracle apps topo (some nc) em fm w).1
          = caps.resources.map fun r => (r, caps.capsOf r, none) := by
      rw [capCallsIn_compose oracle apps topo (some nc) em fm w hgood]
      exact capCallsIn_capEventsOf_some caps nc hc
    refine ⟨hmain, ?_⟩
    intro hnd r
    rw [hmain, List.map_map]
    have : ((fun x : String × Rat × Option (List TrafficClass) => x.1)
        ∘ fun r => (r, caps.capsOf r, none)) = id := rfl
    rw [this, List.map_id]
    by_cases hr : r ∈ caps.resources
    · rw [if_pos hr]
      exact List.count_eq_one_of_mem hnd hr
    · rw [if_neg hr]
      exact List.count_eq_zero_of_not_mem hr

/-- Witness for C6: with `nc0` capping "bw" at 5, exactly the one expected
capping request appears. -/
theorem c6_capping_witness :
    capCallsIn (compose_apps orac0 [appA, appB] topo0 (some nc0) "avg"
        "weighted" none).1 = [("bw", 5, none)] :=
  ((c6_capping orac0 [appA, appB] topo0 "avg" "weighted" none
    (by decide)).2.2 nc0 caps0 rfl).1

/-- C8: for each application in input order, exactly one single-objective
call is made with the application's objective kind and positional
arguments, and keyword options equal to the application's own options
augmented with the variable name (the application's name) and the target
traffic classes (the application's objective-scoped classes); the returned
per-epoch vectors are stacked in input order and submitted once to the
final composition step together with the epoch mode, fairness mode, and
weight vector. -/
theorem c8_objectives
    (oracle : String → List Nat → List (String × KwVal) → List Rat)
    (apps : List App) (topo : Topology) (nc : Option NetworkConfig)
    (em fm : String) (w : Option (List Rat)) (ws : List Rat)
    (hgood : ∀ r ∈ rset apps, goodResource apps r = true)
    (hw : weightsOf apps w = .ok ws) :
    objCallsIn (compose_apps oracle apps topo nc em fm w).1
      = apps.map (fun a => (a.obj_fn, a.obj_args, augKwargs a))
    ∧ composeCallsIn (compose_apps oracle apps topo nc em fm w).1
      = [(apps.map fun a => oracle a.obj_fn a.obj_args (augKwargs a),
          em, fm, ws)]
    ∧ ∀ a : App,
        dlookup "varname" (augKwargs a) = some (KwVal.s a.name)
        ∧ dlookup "tcs" (augKwargs a) = some (KwVal.tcl a.obj_tc)
        ∧ ∀ k, k ≠ "varname" → k ≠ "tcs" →
            dlookup k (augKwargs a) = dlookup k a.obj_kwargs := by
  refine ⟨objCallsIn_compose oracle apps topo nc em fm w ws hgood hw,
    composeCallsIn_compose oracle apps topo nc em fm w ws hgood hw, ?_⟩
  intro a
  refine ⟨?_, ?_, ?_⟩
  · unfold augKwargs
    rw [dlookup_dictSet_other _ _ _ _ (by decide),
      dlookup_dictSet_same]
  · unfold augKwargs
    rw [dlookup_dictSet_same]
  · intro k hk1 hk2
    unfold augKwargs
    rw [dlookup_dictSet_other _ _ _ _ hk2, dlookup_dictSet_other _ _ _ _ hk1]

/-- Witness for C8 on the end-to-end scenario: the two objective calls, in
input order, with the augmented keyword options. -/
theorem c8_objectives_witness :
    objCallsIn (compose_apps orac0 [appA, appB] topo0 none "avg" "weighted"
        none).1
      = [("minlinkload", [], [("resource", KwVal.s "bw"),
           ("varname", KwVal.s "A"), ("tcs", KwVal.tcl [0])]),
         ("minnodeload", [7], [("varname", KwVal.s "B"),
           ("tcs", KwVal.tcl [0])])] :=
  (c8_objectives orac0 [appA, appB] topo0 none "avg" "weighted" none
    (derivedWeights [appA, appB]) (by decide) rfl).1

theorem storeGet_append (st : Store) (d : Dict) (i : Nat)
    (h : i < st.length) : storeGet (st ++ [d]) i = storeGet st i := by
  unfold storeGet
  rw [List.getElem?_append_left h]

/-- C10: the objective loop leaves every input dictionary unchanged — the
keyword options are copied into a fresh heap cell before being augmented
with the variable name and target traffic classes, so every pre-existing
heap cell (in particular each application's own `obj[2]`) is identical
after the loop, while each single-objective call receives the augmented
copy.  (The loop only reads the other application attributes, and the spec
designates the collaborator objects as read-only to the composer.) -/
theorem c10_frame (apps : List ObjApp) (st : Store)
    (h : ∀ a ∈ apps, a.kwargsRef < st.length) :
    (∀ i, i < st.length → ((objLoopStore apps st).1)[i]? = st[i]?)
    ∧ (objLoopStore apps st).2 = apps.map fun a =>
        (a.obj_fn, a.obj_args,
          dictSet (dictSet (storeGet st a.kwargsRef) "varname"
            (KwVal.s a.name)) "tcs" (KwVal.tcl a.obj_tc)) := by
  induction apps generalizing st with
  | nil => exact ⟨fun i _ => rfl, rfl⟩
  | cons a rest ih =>
    have hlen : st.length < (st ++ [dictSet (dictSet (storeGet st a.kwargsRef)
        "varname" (KwVal.s a.name)) "tcs" (KwVal.tcl a.obj_tc)]).length := by
      simp
    obtain ⟨ihframe, ihcalls⟩ := ih
      (st ++ [dictSet (dictSet (storeGet st a.kwargsRef) "varname"
        (KwVal.s a.name)) "tcs" (KwVal.tcl a.obj_tc)])
      (fun b hb => lt_trans (h b (List.mem_cons_of_mem a hb)) hlen)
    constructor
    · intro i hi
      have h1 := ihframe i (lt_trans hi hlen)
      rw [List.getElem?_append_left hi] at h1
      exact h1
    · show (a.obj_fn, a.obj_args, dictSet (dictSet (storeGet st a.kwargsRef)
          "varname" (KwVal.s a.name)) "tcs" (KwVal.tcl a.obj_tc))
          :: (objLoopStore rest (st ++ [_])).2 = _
      rw [ihcalls, List.map_cons]
      congr 1
      apply List.map_congr_left
      intro b hb
      rw [storeGet_append st _ b.kwargsRef (h b (List.mem_cons_of_mem a hb))]

/-- Witness for C10: the original dictionary cell of `store0` is unchanged
by the loop over `objApps0`. -/
theorem c10_frame_witness :
    ((objLoopStore objApps0 store0).1)[0]? = store0[0]? :=
  (c10_frame objApps0 store0 (by decide)).1 0 (by decide)

end SOL
